import Mathlib

/-!
Verification of the uberbespoke static site generator (`build.py`).

This file gives a shallow embedding, in Lean, of the data-collection and
categorization/sorting pipeline of the generator, translated function by
function from the Python source, and proves (or refutes) the frozen claims
about its behaviour.

Modelling conventions:
* Python dictionaries whose keys and values are strings are modelled as
  association lists `List (String × String)`; assignment `d[k] = v`
  replaces the value of an existing key in place and appends a fresh key
  at the end (CPython insertion-order semantics), and lookup returns the
  value of the (unique) matching key.
* Python exceptions are modelled with `Except PyErr`; each modelled
  exception kind is a constructor of `PyErr`.
* Python strings are modelled as `String` where only whole-string equality
  matters, and as `List Char` where the code indexes or slices them.
* External collaborators (the JSON parser, the markdown renderer, the
  `datetime.strptime` parser) are parameters of the embedded functions, as
  the spec treats them as black boxes.
-/

/-- The Python exception kinds raised by the modelled code paths. -/
inductive PyErr where
  | attributeError
  | indexError
  | valueError
  | keyError
deriving DecidableEq, Repr

/-- Python dict assignment `d[k] = v` on a string-to-string dict modelled
as an association list: replace the binding of `k` if present (keeping its
position), otherwise append `(k, v)` at the end. -/
def setKey : List (String × String) → String → String → List (String × String)
  | [], k, v => [(k, v)]
  | (k0, v0) :: rest, k, v =>
    if k0 = k then (k, v) :: rest else (k0, v0) :: setKey rest k v

/-- Python dict lookup `d[k]` / `d.get(k)`: value of the first (hence, for
dicts built with `setKey`, the unique) binding of `k`. -/
def dictLookup {α : Type} : List (String × α) → String → Option α
  | [], _ => none
  | (k0, v0) :: rest, k => if k0 = k then some v0 else dictLookup rest k

/-- `Collector.apply_headings`, inner loop for one row:
`for i, field in enumerate(object_): _new_object[headings[i]] = field`,
starting from index `i` and the partially built dict `d`.  When `i` runs
past the end of `headings`, Python raises `IndexError`. -/
def applyRowAux (headings : List String) : Nat → List (String × String) →
    List String → Except PyErr (List (String × String))
  | _, d, [] => .ok d
  | i, d, field :: rest =>
    match headings.get? i with
    | some h => applyRowAux headings (i + 1) (setKey d h field) rest
    | none => .error .indexError

/-- `Collector.apply_headings`, one row: build `_new_object` from the empty
dict. -/
def applyRow (headings row : List String) : Except PyErr (List (String × String)) :=
  applyRowAux headings 0 [] row

/-- `Collector.apply_headings(headings, array_)`: one record per row, in
order; the first failing row aborts the whole call. -/
def apply_headings (headings : List String) :
    List (List String) → Except PyErr (List (List (String × String)))
  | [] => .ok []
  | row :: rest =>
    match applyRow headings row with
    | .error e => .error e
    | .ok d =>
      match apply_headings headings rest with
      | .error e => .error e
      | .ok ds => .ok (d :: ds)

theorem dictLookup_setKey_self (d : List (String × String)) (k v : String) :
    dictLookup (setKey d k v) k = some v := by
  induction d with
  | nil => simp [setKey, dictLookup]
  | cons p rest ih =>
    by_cases h : p.1 = k
    · simp [setKey, h, dictLookup]
    · simpa [setKey, h, dictLookup] using ih

theorem dictLookup_setKey_ne (d : List (String × String)) (k v k1 : String)
    (hne : k1 ≠ k) : dictLookup (setKey d k v) k1 = dictLookup d k1 := by
  have hkk1 : ¬k = k1 := fun he => hne he.symm
  induction d with
  | nil => simp [setKey, dictLookup, hkk1]
  | cons p rest ih =>
    by_cases h : p.1 = k
    · subst h
      simp [setKey, dictLookup, hkk1]
    · by_cases h1 : p.1 = k1
      · simp [setKey, dictLookup, h, h1, hne]
      · simp [setKey, dictLookup, h, h1, ih]

theorem setKey_of_not_mem (d : List (String × String)) (k v : String)
    (h : k ∉ d.map Prod.fst) : setKey d k v = d ++ [(k, v)] := by
  induction d with
  | nil => simp [setKey]
  | cons p rest ih =>
    simp only [List.map_cons, List.mem_cons] at h
    push_neg at h
    simp only [setKey, if_neg (Ne.symm h.1)]
    rw [ih h.2]
    simp

theorem applyRowAux_overflow (H : List String) :
    ∀ (row : List String) (i : Nat) (d : List (String × String)),
      row ≠ [] → H.length < i + row.length →
      applyRowAux H i d row = .error .indexError
  | [], _, _, hne, _ => absurd rfl hne
  | field :: rest, i, d, _, hlt => by
    rw [applyRowAux]
    cases hg : H.get? i with
    | none => rfl
    | some h =>
      have hi : i < H.length := by
        by_contra hc
        rw [List.get?_eq_none.mpr (by omega)] at hg
        exact Option.noConfusion hg
      cases rest with
      | nil =>
        exact absurd hi (by simp at hlt; omega)
      | cons f2 r2 =>
        exact applyRowAux_overflow H (f2 :: r2) (i + 1) _ (by simp)
          (by simp at hlt ⊢; omega)

theorem applyRowAux_ok_zip (H : List String) (hnd : H.Nodup) :
    ∀ (row : List String) (i : Nat) (d : List (String × String)),
      i + row.length ≤ H.length → d.map Prod.fst = H.take i →
      applyRowAux H i d row = .ok (d ++ (H.drop i).zip row)
  | [], i, d, _, _ => by simp [applyRowAux]
  | field :: rest, i, d, hle, hkeys => by
    have hi : i < H.length := by simp at hle; omega
    have hget : H.get? i = some (H.get ⟨i, hi⟩) := List.get?_eq_get hi
    have hdrop : H.drop i = H.get ⟨i, hi⟩ :: H.drop (i + 1) :=
      List.drop_eq_get_cons hi
    have hfresh : H.get ⟨i, hi⟩ ∉ d.map Prod.fst := by
      rw [hkeys]
      intro hmem
      have hnd2 : (H.take i ++ H.drop i).Nodup := by
        rw [List.take_append_drop]; exact hnd
      have hdisj := (List.nodup_append.mp hnd2).2.2
      exact hdisj hmem (by rw [hdrop]; exact List.mem_cons_self _ _)
    simp only [applyRowAux, hget]
    rw [setKey_of_not_mem _ _ _ hfresh]
    rw [applyRowAux_ok_zip H hnd rest (i + 1) _
      (by simp at hle ⊢; omega)
      (by rw [List.map_append, hkeys]
          simp [List.take_succ, hget])]
    rw [hdrop, List.zip_cons_cons, List.append_assoc]
    rfl

theorem applyRow_eq_zip (H row : List String) (hnd : H.Nodup)
    (hle : row.length ≤ H.length) :
    applyRow H row = .ok (H.zip row) := by
  have := applyRowAux_ok_zip H hnd row 0 [] (by omega) (by simp)
  simpa [applyRow] using this

theorem dictLookup_zip : ∀ (H row : List String), H.Nodup →
    ∀ (i : Nat) (hi : i < H.length),
      dictLookup (H.zip row) (H.get ⟨i, hi⟩) = row.get? i
  | [], _, _, i, hi => absurd hi (by simp)
  | h :: H, [], _, i, hi => by simp [dictLookup]
  | h :: H, f :: row, hnd, 0, hi => by simp [dictLookup]
  | h :: H, f :: row, hnd, i + 1, hi => by
    have hmem : (h :: H).get ⟨i + 1, hi⟩ ∈ H := by
      simp only [List.get_cons_succ]
      exact List.get_mem H _ _
    have hne : h ≠ (h :: H).get ⟨i + 1, hi⟩ := by
      intro he
      exact (List.nodup_cons.mp hnd).1 (he ▸ hmem)
    simp only [List.zip_cons_cons, dictLookup, if_neg hne]
    simpa using dictLookup_zip H row (List.nodup_cons.mp hnd).2 i (by simpa using hi)

/-- C3 counterexample: with one heading `"a"` and the longer row
`["1", "2"]`, `apply_headings` raises `IndexError` (`headings[1]` is out of
range); it does not return the record `{"a": "1"}` predicted by the claim. -/
theorem c3_counterexample :
    apply_headings ["a"] [["1", "2"]] = .error .indexError ∧
    apply_headings ["a"] [["1", "2"]] ≠ .ok [[("a", "1")]] := by
  refine ⟨rfl, ?_⟩
  intro h
  rw [show apply_headings ["a"] [["1", "2"]] = .error .indexError from rfl] at h
  exact Except.noConfusion h

/-- C3 (amended): for every header sequence `H` and every row strictly longer
than `H`, normalization raises an index-out-of-range failure (`IndexError`)
and produces no record; the extra trailing values are not dropped. -/
theorem c3_long_row_indexError (H row : List String)
    (h : H.length < row.length) :
    applyRow H row = .error .indexError ∧
    apply_headings H [row] = .error .indexError := by
  have hne : row ≠ [] := by
    intro he
    rw [he] at h
    simp at h
  have h1 : applyRow H row = .error .indexError :=
    applyRowAux_overflow H row 0 [] hne (by omega)
  refine ⟨h1, ?_⟩
  rw [apply_headings, h1]

/-- C3 witness at `H = ["a"]`, `row = ["1", "2"]`. -/
theorem c3_long_row_indexError_witness :
    (["a"] : List String).length < (["1", "2"] : List String).length ∧
    (applyRow ["a"] ["1", "2"] = .error .indexError ∧
      apply_headings ["a"] [["1", "2"]] = .error .indexError) :=
  ⟨by decide, c3_long_row_indexError ["a"] ["1", "2"] (by decide)⟩

/-- C6 counterexample: with the duplicated header sequence `["a", "a"]` and
row `["1", "2"]`, the produced record maps `"a"` to the last assigned value
`"2"`, not to `row[0] = "1"` as the claim requires at index `0`. -/
theorem c6_counterexample :
    apply_headings ["a", "a"] [["1", "2"]] = .ok [[("a", "2")]] ∧
    dictLookup [("a", "2")] "a" ≠ some "1" := by
  constructor
  · rfl
  · decide

/-- C6 (amended): for every header sequence `H` with pairwise-distinct names
and every row sequence `R` whose rows all have length `H.length`,
`apply_headings` succeeds and produces exactly one record per row, the
association list `H.zip row`, and that record maps `H[i]` to `row[i]` for
every index `i`. -/
theorem c6_apply_headings_exact (H : List String) (R : List (List String))
    (hnd : H.Nodup) (hlen : ∀ row ∈ R, row.length = H.length) :
    apply_headings H R = .ok (R.map (fun row => H.zip row)) ∧
    ∀ row ∈ R, ∀ (i : Nat) (hi : i < H.length),
      dictLookup (H.zip row) (H.get ⟨i, hi⟩) = row.get? i := by
  constructor
  · induction R with
    | nil => rfl
    | cons row rest ih =>
      have hrow : applyRow H row = .ok (H.zip row) :=
        applyRow_eq_zip H row hnd (le_of_eq (hlen row (by simp)))
      rw [apply_headings, hrow, ih (fun r hr => hlen r (by simp [hr]))]
      simp
  · intro row _ i hi
    exact dictLookup_zip H row hnd i hi

/-- C6 witness at `H = ["a", "b", "c"]`, `R = [["1", "2", "3"]]`: the spec's
round-trip scenario, yielding the single record `{a: "1", b: "2", c: "3"}`. -/
theorem c6_apply_headings_exact_witness :
    ((["a", "b", "c"] : List String).Nodup ∧
      ∀ row ∈ [["1", "2", "3"]], List.length row = (["a", "b", "c"] : List String).length) ∧
    (apply_headings ["a", "b", "c"] [["1", "2", "3"]] =
        .ok ([["1", "2", "3"]].map (fun row => (["a", "b", "c"]).zip row)) ∧
      ∀ row ∈ [["1", "2", "3"]], ∀ (i : Nat) (hi : i < (["a", "b", "c"] : List String).length),
        dictLookup ((["a", "b", "c"]).zip row) ((["a", "b", "c"]).get ⟨i, hi⟩) = row.get? i) :=
  ⟨⟨by decide, by decide⟩,
    c6_apply_headings_exact ["a", "b", "c"] [["1", "2", "3"]] (by decide) (by decide)⟩

/-- A record as seen by the categorizer: the `"category"` field that
`parse_categories` reads, plus an opaque payload standing for every other
field of the dict.  The claims about grouping quantify over record
sequences in which each record has a `"category"` field, which this
structure makes intrinsic. -/
structure DRec where
  category : String
  payload : Nat
deriving DecidableEq, Repr

/-- A category group `{"name": ..., "entries": ...}` as built by
`parse_categories`. -/
structure CatGroup where
  name : String
  entries : List DRec
deriving DecidableEq, Repr

/-- The category-collection loop shared by `DataCollector.parse_categories`
and `PostCollector.parse_categories`:
`for entry in datafile: if entry["category"] not in categories:
categories.append(entry["category"])`, with `acc` the list built so far. -/
def collectCats : List String → List DRec → List String
  | acc, [] => acc
  | acc, e :: rest =>
    collectCats (if e.category ∈ acc then acc else acc ++ [e.category]) rest

/-- `DataCollector.parse_categories`, applied to the fetched datafile: one
group per collected category value, named by that value verbatim, whose
entries are the stable filter of the datafile on that category. -/
def data_parse_categories (datafile : List DRec) : List CatGroup :=
  (collectCats [] datafile).map
    (fun c => ⟨c, datafile.filter (fun x => x.category == c)⟩)

/-- Python `str.capitalize()` (ASCII model): first character uppercased and
every remaining character lowercased. -/
def pyCapitalize (s : String) : String :=
  match s.toList with
  | [] => ""
  | c :: rest => String.mk (Char.toUpper c :: rest.map Char.toLower)

/-- `PostCollector.parse_categories`: same grouping as the data collector,
except that the surfaced group name is `category.capitalize()`. -/
def post_parse_categories (datafiles : List DRec) : List CatGroup :=
  (collectCats [] datafiles).map
    (fun c => ⟨pyCapitalize c, datafiles.filter (fun x => x.category == c)⟩)

/-- Specification-side description of "the distinct values of a list in
first-occurrence order": keep each head and strip its later duplicates. -/
def firstOcc : List String → List String
  | [] => []
  | c :: rest => c :: (firstOcc rest).filter (fun x => !(decide (x = c)))

theorem mem_collectCats_of_mem_acc (l : List DRec) :
    ∀ (acc : List String) (a : String), a ∈ acc → a ∈ collectCats acc l := by
  induction l with
  | nil => intro acc a ha; exact ha
  | cons e rest ih =>
    intro acc a ha
    rw [collectCats]
    by_cases hc : e.category ∈ acc
    · rw [if_pos hc]; exact ih acc a ha
    · rw [if_neg hc]; exact ih _ a (by simp [ha])

theorem category_mem_collectCats (l : List DRec) :
    ∀ (acc : List String) (x : DRec), x ∈ l → x.category ∈ collectCats acc l := by
  induction l with
  | nil => intro _ x hx; exact absurd hx (by simp)
  | cons e rest ih =>
    intro acc x hx
    rw [collectCats]
    rcases List.mem_cons.mp hx with he | hrest
    · subst he
      apply mem_collectCats_of_mem_acc
      by_cases hc : x.category ∈ acc
      · rw [if_pos hc]; exact hc
      · rw [if_neg hc]; simp
    · exact ih _ x hrest

theorem nodup_collectCats (l : List DRec) :
    ∀ (acc : List String), acc.Nodup → (collectCats acc l).Nodup := by
  induction l with
  | nil => intro acc h; exact h
  | cons e rest ih =>
    intro acc h
    rw [collectCats]
    by_cases hc : e.category ∈ acc
    · rw [if_pos hc]; exact ih acc h
    · rw [if_neg hc]
      exact ih _ (by simp [List.nodup_append, h, hc])

theorem collectCats_eq_firstOcc (l : List DRec) :
    ∀ (acc : List String),
      collectCats acc l =
        acc ++ (firstOcc (l.map DRec.category)).filter (fun x => !(decide (x ∈ acc))) := by
  induction l with
  | nil => intro acc; simp [collectCats, firstOcc]
  | cons e rest ih =>
    intro acc
    rw [collectCats, List.map_cons, firstOcc]
    by_cases hc : e.category ∈ acc
    · rw [if_pos hc, ih acc]
      congr 1
      rw [List.filter_cons_of_neg (by simp [hc]), List.filter_filter]
      apply List.filter_congr
      intro x _
      by_cases hx : x = e.category
      · subst hx; simp [hc]
      · simp [hx]
    · rw [if_neg hc, ih (acc ++ [e.category])]
      rw [List.filter_cons_of_pos (by simp [hc])]
      rw [List.append_assoc]
      congr 1
      rw [List.singleton_append, List.filter_filter]
      congr 1
      apply List.filter_congr
      intro x _
      by_cases hx : x = e.category
      · subst hx; simp
      · simp [hx]

theorem collectCats_nil (l : List DRec) :
    collectCats [] l = firstOcc (l.map DRec.category) := by
  rw [collectCats_eq_firstOcc l []]
  simp

theorem flatten_filters_perm : ∀ (cats : List String) (l : List DRec),
    cats.Nodup → (∀ x ∈ l, x.category ∈ cats) →
    (cats.map (fun c => l.filter (fun x => x.category == c))).flatten.Perm l
  | [], l, _, hcov => by
    cases l with
    | nil => simp
    | cons x xs => exact absurd (hcov x (by simp)) (by simp)
  | c :: cats, l, hnd, hcov => by
    have hcnotin : c ∉ cats := (List.nodup_cons.mp hnd).1
    have hstep : ∀ c1 ∈ cats,
        l.filter (fun x => x.category == c1) =
          (l.filter (fun x => !(x.category == c))).filter (fun x => x.category == c1) := by
      intro c1 hc1
      have hne : c1 ≠ c := fun he => hcnotin (he ▸ hc1)
      rw [List.filter_filter]
      apply List.filter_congr
      intro x _
      by_cases hx : x.category = c1
      · simp [hx, hne]
      · simp [hx]
    rw [List.map_cons, List.flatten_cons,
      List.map_congr_left hstep]
    have hsub : ∀ x ∈ l.filter (fun x => !(x.category == c)), x.category ∈ cats := by
      intro x hx
      rcases List.mem_filter.mp hx with ⟨hxl, hxc⟩
      rcases List.mem_cons.mp (hcov x hxl) with he | h
      · exfalso
        rw [he] at hxc
        simp at hxc
      · exact h
    have ih := flatten_filters_perm cats (l.filter (fun x => !(x.category == c)))
      (List.nodup_cons.mp hnd).2 hsub
    exact (ih.append_left _).trans (List.filter_append_perm _ l)

/-- C4: grouping a record sequence by its `"category"` field drops and
duplicates no record (the concatenation of the groups' entries is a
permutation of the input), keeps each group's entries in source order (each
group is the stable filter of the input on its category value), and orders
the groups by first occurrence of their category value in the input. -/
theorem c4_group_by_category (l : List DRec) :
    ((data_parse_categories l).map CatGroup.entries).flatten.Perm l ∧
    (∀ g ∈ data_parse_categories l,
      g.entries = l.filter (fun x => x.category == g.name)) ∧
    (data_parse_categories l).map CatGroup.name = firstOcc (l.map DRec.category) := by
  refine ⟨?_, ?_, ?_⟩
  · have hnd : (collectCats [] l).Nodup := nodup_collectCats l [] (by simp)
    have hcov : ∀ x ∈ l, x.category ∈ collectCats [] l :=
      fun x hx => category_mem_collectCats l [] x hx
    have hperm := flatten_filters_perm (collectCats [] l) l hnd hcov
    simpa [data_parse_categories, List.map_map, Function.comp] using hperm
  · intro g hg
    simp only [data_parse_categories, List.mem_map] at hg
    obtain ⟨c, _, rfl⟩ := hg
    rfl
  · rw [data_parse_categories, List.map_map]
    rw [show ((fun g => CatGroup.name g) ∘
        (fun c => (⟨c, l.filter (fun x => x.category == c)⟩ : CatGroup))) = id from rfl]
    rw [List.map_id, collectCats_nil]

/-- C7 counterexample: for a record with category `"aB"`, the post-category
group name is `"Ab"` (Python `str.capitalize()` lowercases the tail), not
`"AB"` as the claim's "rest otherwise unchanged" reading predicts. -/
theorem c7_counterexample :
    post_parse_categories [⟨"aB", 0⟩] =
      [⟨"Ab", [⟨"aB", 0⟩]⟩] ∧ ("Ab" : String) ≠ "AB" := by
  constructor
  · rfl
  · decide

/-- C7 (amended): data-index grouping surfaces each group name as the
category value verbatim, while post grouping surfaces
`category.capitalize()`: the first character uppercased and every remaining
character lowercased (not left unchanged). -/
theorem c7_group_names (l : List DRec) :
    (data_parse_categories l).map CatGroup.name = firstOcc (l.map DRec.category) ∧
    (post_parse_categories l).map CatGroup.name =
      (firstOcc (l.map DRec.category)).map pyCapitalize := by
  constructor
  · rw [data_parse_categories, List.map_map]
    rw [show ((fun g => CatGroup.name g) ∘
        (fun c => (⟨c, l.filter (fun x => x.category == c)⟩ : CatGroup))) = id from rfl]
    rw [List.map_id, collectCats_nil]
  · rw [post_parse_categories, List.map_map]
    rw [show ((fun g => CatGroup.name g) ∘
        (fun c => (⟨pyCapitalize c, l.filter (fun x => x.category == c)⟩ : CatGroup)))
        = pyCapitalize from rfl]
    rw [collectCats_nil]

/-- A Python value as stored in a collector's `datafiles` entry under
`"data"`: a raw string (template collector, rendered post HTML), a list
(csv records), or a dict. -/
inductive PyVal where
  | pstr : String → PyVal
  | plist : List PyVal → PyVal
  | pdict : List (String × PyVal) → PyVal

/-- One entry of a collector's `datafiles` list, as read by
`Collector.getdatafile`: its `"filename"` and `"data"` fields. -/
structure DataFile where
  filename : String
  data : PyVal

/-- `Collector.getdatafile(name)`: linear scan over `self.datafiles`,
returning the `"data"` field of the first record whose `"filename"` equals
`name`, and the empty-list sentinel `[]` when none matches.  The function
is total: no code path raises. -/
def getdatafile : List DataFile → String → PyVal
  | [], _ => .plist []
  | f :: rest, name =>
    if f.filename = name then f.data else getdatafile rest name

/-- C8: on every collector state (the empty one included) and every queried
name, `getdatafile` returns the `"data"` field of the first collected
record whose `"filename"` equals the query (`List.find?` picks exactly the
first match), and the empty-sequence sentinel when no record matches; being
a total function, it never raises. -/
theorem c8_getdatafile_first_match (files : List DataFile) (name : String) :
    getdatafile files name =
      match files.find? (fun f => f.filename == name) with
      | some f => f.data
      | none => .plist [] := by
  induction files with
  | nil => rfl
  | cons f rest ih =>
    by_cases h : f.filename = name
    · simp [getdatafile, List.find?, h]
    · have hf : (fun f => f.filename == name) f = false := by simp [h]
      simp [getdatafile, List.find?_cons, h, hf, ih]

/-- `Utils.ext(filename, extension)`: join with `os.path.extsep`, i.e.
`filename + "." + extension`. -/
def pyExt (filename extension : String) : String :=
  filename ++ "." ++ extension

/-- The record-building part of `PostCollector.extract_data` for one file:
start from `{"filename": basename + ".html", "data": html}` (where `html`
is the markdown collaborator's output) and then merge every metadata item
in with `datafile[key] = value`, in the JSON object's item order. -/
def extract_record (basename html : String) (meta : List (String × String)) :
    List (String × String) :=
  meta.foldl (fun d kv => setKey d kv.1 kv.2)
    [("filename", pyExt basename "html"), ("data", html)]

theorem dictLookup_foldl_setKey_not_mem :
    ∀ (meta : List (String × String)) (d : List (String × String)) (k : String),
      k ∉ meta.map Prod.fst →
      dictLookup (meta.foldl (fun d kv => setKey d kv.1 kv.2) d) k = dictLookup d k
  | [], _, _, _ => rfl
  | kv :: rest, d, k, hk => by
    have hne : k ≠ kv.1 := by
      intro he
      exact hk (by simp [he])
    rw [List.foldl_cons,
      dictLookup_foldl_setKey_not_mem rest (setKey d kv.1 kv.2) k
        (fun hmem => hk (List.mem_cons_of_mem kv.1 hmem)),
      dictLookup_setKey_ne _ _ _ _ hne]

theorem dictLookup_foldl_setKey_mem :
    ∀ (meta : List (String × String)) (d : List (String × String)) (k v : String),
      (meta.map Prod.fst).Nodup → (k, v) ∈ meta →
      dictLookup (meta.foldl (fun d kv => setKey d kv.1 kv.2) d) k = some v
  | [], _, _, _, _, hm => absurd hm (by simp)
  | kv :: rest, d, k, v, hnd, hm => by
    rw [List.foldl_cons]
    rcases List.mem_cons.mp hm with he | hrest
    · have hk : k ∉ rest.map Prod.fst := by
        rw [show k = kv.1 from congrArg Prod.fst he.symm ▸ rfl]
        exact (List.nodup_cons.mp (by simpa using hnd)).1
      rw [dictLookup_foldl_setKey_not_mem rest _ k hk, ← he,
        dictLookup_setKey_self]
    · exact dictLookup_foldl_setKey_mem rest _ k v
        (List.nodup_cons.mp (by simpa using hnd)).2 hrest

/-- C9: in the post record built by `PostCollector.extract_data`, metadata
fields are merged after the derived fields, so a metadata `"filename"`
overwrites the derived `basename + ".html"` and a metadata `"data"`
overwrites the rendered HTML body; without such metadata keys the derived
values remain. -/
theorem c9_metadata_overwrites (basename html : String)
    (meta : List (String × String)) (hnd : (meta.map Prod.fst).Nodup) :
    (∀ v, ("filename", v) ∈ meta →
      dictLookup (extract_record basename html meta) "filename" = some v) ∧
    (∀ v, ("data", v) ∈ meta →
      dictLookup (extract_record basename html meta) "data" = some v) ∧
    ("filename" ∉ meta.map Prod.fst →
      dictLookup (extract_record basename html meta) "filename" =
        some (pyExt basename "html")) ∧
    ("data" ∉ meta.map Prod.fst →
      dictLookup (extract_record basename html meta) "data" = some html) := by
  refine ⟨?_, ?_, ?_, ?_⟩
  · intro v hv
    exact dictLookup_foldl_setKey_mem meta _ "filename" v hnd hv
  · intro v hv
    exact dictLookup_foldl_setKey_mem meta _ "data" v hnd hv
  · intro hk
    rw [extract_record, dictLookup_foldl_setKey_not_mem meta _ _ hk]
    simp [dictLookup]
  · intro hk
    rw [extract_record, dictLookup_foldl_setKey_not_mem meta _ _ hk]
    simp [dictLookup]

/-- C9 witness at `basename = "post1"`, `html = "<h1>Hi</h1>"` and metadata
`{"filename": "custom.html", "data": "override"}`. -/
theorem c9_metadata_overwrites_witness :
    ((([("filename", "custom.html"), ("data", "override")] :
        List (String × String)).map Prod.fst).Nodup) ∧
    ((∀ v, ("filename", v) ∈ [("filename", "custom.html"), ("data", "override")] →
      dictLookup (extract_record "post1" "<h1>Hi</h1>"
        [("filename", "custom.html"), ("data", "override")]) "filename" = some v) ∧
    (∀ v, ("data", v) ∈ [("filename", "custom.html"), ("data", "override")] →
      dictLookup (extract_record "post1" "<h1>Hi</h1>"
        [("filename", "custom.html"), ("data", "override")]) "data" = some v) ∧
    ("filename" ∉ ([("filename", "custom.html"), ("data", "override")] :
        List (String × String)).map Prod.fst →
      dictLookup (extract_record "post1" "<h1>Hi</h1>"
        [("filename", "custom.html"), ("data", "override")]) "filename" =
        some (pyExt "post1" "html")) ∧
    ("data" ∉ ([("filename", "custom.html"), ("data", "override")] :
        List (String × String)).map Prod.fst →
      dictLookup (extract_record "post1" "<h1>Hi</h1>"
        [("filename", "custom.html"), ("data", "override")]) "data" = some "<h1>Hi</h1>")) :=
  ⟨by decide,
    c9_metadata_overwrites "post1" "<h1>Hi</h1>"
      [("filename", "custom.html"), ("data", "override")] (by decide)⟩

/-- Python `str.split(sep)` for a one-character separator: split at every
occurrence of `sep`, keeping empty parts (`"".split("x") == [""]`,
`"}".split("}") == ["", ""]`). -/
def splitChar (sep : Char) : List Char → List (List Char)
  | [] => [[]]
  | c :: rest =>
    if c = sep then [] :: splitChar sep rest
    else
      match splitChar sep rest with
      | [] => [[c]]
      | p :: ps => (c :: p) :: ps

/-- The metadata/markdown split at the head of `PostCollector.extract_data`:
`json_, markdown = f.read().split("}")`.  The two-name unpacking succeeds
only when the split has exactly two parts — i.e. the content contains
exactly one closing brace — and raises `ValueError` otherwise; on success
`json_ + "\x7d"` goes to the JSON parser and `markdown` to the markdown
renderer. -/
def post_split (content : List Char) : Except PyErr (List Char × List Char) :=
  match splitChar '\x7d' content with
  | [j, m] => .ok (j ++ ['\x7d'], m)
  | _ => .error .valueError

/-- C2 counterexample: the content `"{\x7d a\x7d"` (metadata `"{\x7d"`, body
`"a\x7d"` containing a later closing brace) makes the split produce three
parts, so the unpacking raises `ValueError` instead of splitting at the
first closing brace as the claim states. -/
theorem c2_counterexample :
    post_split ['\x7b', '\x7d', 'a', '\x7d'] = .error .valueError ∧
    post_split ['\x7b', '\x7d', 'a', '\x7d'] ≠
      .ok (['\x7b', '\x7d'], ['a', '\x7d']) := by
  refine ⟨rfl, ?_⟩
  intro h
  rw [show post_split ['\x7b', '\x7d', 'a', '\x7d'] = .error .valueError from rfl] at h
  exact Except.noConfusion h

theorem splitChar_of_not_mem (sep : Char) :
    ∀ (l : List Char), sep ∉ l → splitChar sep l = [l]
  | [], _ => rfl
  | c :: rest, h => by
    have hc : ¬c = sep := fun he => h (by simp [he])
    rw [splitChar, if_neg hc,
      splitChar_of_not_mem sep rest (fun hm => h (List.mem_cons_of_mem c hm))]

/-- C2 (amended): extraction splits as the claim describes only when the
content contains exactly one closing brace: for brace-free `a` and `b`, the
content `a ++ "\x7d" ++ b` splits into the metadata text `a ++ "\x7d"` and
the body `b`.  (Any additional closing brace in the body makes the split
raise `ValueError`, per the counterexample.) -/
theorem c2_single_brace_split (a b : List Char)
    (ha : '\x7d' ∉ a) (hb : '\x7d' ∉ b) :
    post_split (a ++ '\x7d' :: b) = .ok (a ++ ['\x7d'], b) := by
  have hsplit : ∀ (a1 : List Char), '\x7d' ∉ a1 →
      splitChar '\x7d' (a1 ++ '\x7d' :: b) = [a1, b] := by
    intro a1 ha1
    induction a1 with
    | nil =>
      rw [List.nil_append, splitChar, if_pos rfl, splitChar_of_not_mem _ b hb]
    | cons c a2 ih =>
      have hc : ¬c = '\x7d' := fun he => ha1 (by simp [he])
      rw [List.cons_append, splitChar, if_neg hc,
        ih (fun hm => ha1 (List.mem_cons_of_mem c hm))]
  rw [post_split, hsplit a ha]

/-- C2 witness at content `"{\x7d a"`: metadata `"{\x7d"`, body `"a"`. -/
theorem c2_single_brace_split_witness :
    ('\x7d' ∉ (['\x7b'] : List Char) ∧ '\x7d' ∉ (['a'] : List Char)) ∧
    post_split ['\x7b', '\x7d', 'a'] = .ok (['\x7b', '\x7d'], ['a']) :=
  ⟨⟨by decide, by decide⟩, c2_single_brace_split ['\x7b'] ['a'] (by decide) (by decide)⟩

/-- A post record as seen by `PostCollector.parse_date`: its `"date"`
string field plus an opaque payload standing for the other fields. -/
structure Post where
  date : String
  payload : Nat
deriving DecidableEq, Repr

/-- A post record after `datafile["datetime"] = strptime(...)`: the parsed
date-time attached.  Date-times are modelled as naturals ordered the way
the parsed date-times are. -/
structure PostD where
  date : String
  datetime : Nat
  payload : Nat
deriving DecidableEq, Repr

/-- The attachment loop of `PostCollector.parse_date`:
`datafile["datetime"] = datetime.datetime.strptime(datafile["date"],
self.date_format)`.  `strptime` with the configured format is the `parse`
collaborator; its parse failure is the fatal `ValueError`. -/
def attachDates (parse : String → Option Nat) :
    List Post → Except PyErr (List PostD)
  | [] => .ok []
  | p :: rest =>
    match parse p.date with
    | none => .error .valueError
    | some dt =>
      match attachDates parse rest with
      | .error e => .error e
      | .ok ds => .ok (⟨p.date, dt, p.payload⟩ :: ds)

/-- The descending order used by
`sorted(datafiles, key=lambda x: x["datetime"], reverse=True)`. -/
def dateGE (a b : PostD) : Prop := b.datetime ≤ a.datetime

instance : DecidableRel dateGE := fun a b => Nat.decLe b.datetime a.datetime

instance : IsTotal PostD dateGE := ⟨fun a b => Nat.le_total b.datetime a.datetime⟩

instance : IsTrans PostD dateGE := ⟨fun _ _ _ h1 h2 => Nat.le_trans h2 h1⟩

/-- `PostCollector.parse_date`: attach the parsed date-time to every
record, then return the records sorted by it, most recent first.  Python's
stable `sorted(..., reverse=True)` is modelled by stable insertion sort
under `dateGE`. -/
def parse_date (parse : String → Option Nat) (datafiles : List Post) :
    Except PyErr (List PostD) :=
  match attachDates parse datafiles with
  | .error e => .error e
  | .ok ds => .ok (ds.insertionSort dateGE)

/-- Forget the attached date-time again. -/
def stripDT (d : PostD) : Post := ⟨d.date, d.payload⟩

theorem attachDates_ok (parse : String → Option Nat) :
    ∀ (l : List Post), (∀ p ∈ l, (parse p.date).isSome) →
      ∃ ds, attachDates parse l = .ok ds ∧ ds.map stripDT = l ∧
        ∀ d ∈ ds, parse d.date = some d.datetime
  | [], _ => ⟨[], rfl, rfl, by simp⟩
  | p :: rest, h => by
    obtain ⟨dt, hdt⟩ := Option.isSome_iff_exists.mp (h p (by simp))
    obtain ⟨ds, hds, hmap, hparse⟩ :=
      attachDates_ok parse rest (fun q hq => h q (by simp [hq]))
    refine ⟨⟨p.date, dt, p.payload⟩ :: ds, ?_, ?_, ?_⟩
    · rw [attachDates, hdt, hds]
    · rw [List.map_cons, hmap, stripDT]
    · intro d hd
      rcases List.mem_cons.mp hd with he | hrest
      · subst he
        exact hdt
      · exact hparse d hrest

/-- C5: when every record's `"date"` string parses under the configured
pattern, `parse_date` succeeds, attaches to each record the date-time its
date string parses to, and returns a permutation of the input ordered
non-increasing by that attached date-time (most recent first). -/
theorem c5_parse_date_sorted (parse : String → Option Nat) (l : List Post)
    (h : ∀ p ∈ l, (parse p.date).isSome) :
    ∃ out, parse_date parse l = .ok out ∧
      (out.map stripDT).Perm l ∧
      (∀ d ∈ out, parse d.date = some d.datetime) ∧
      out.Pairwise dateGE := by
  obtain ⟨ds, hds, hmap, hparse⟩ := attachDates_ok parse l h
  refine ⟨ds.insertionSort dateGE, ?_, ?_, ?_, ?_⟩
  · rw [parse_date, hds]
  · exact hmap ▸ (List.perm_insertionSort dateGE ds).map stripDT
  · intro d hd
    exact hparse d ((List.perm_insertionSort dateGE ds).mem_iff.mp hd)
  · exact List.sorted_insertionSort dateGE ds

/-- C5 witness: with the parse collaborator `fun s => some s.length` and
three posts whose dates parse to 2, 4 and 3, `parse_date` sorts them 4, 3,
2. -/
theorem c5_parse_date_sorted_witness :
    (∀ p ∈ [(⟨"aa", 0⟩ : Post), ⟨"bbbb", 1⟩, ⟨"ccc", 2⟩],
      ((fun s => some s.length) p.date).isSome) ∧
    (∃ out, parse_date (fun s => some s.length)
        [(⟨"aa", 0⟩ : Post), ⟨"bbbb", 1⟩, ⟨"ccc", 2⟩] = .ok out ∧
      (out.map stripDT).Perm [(⟨"aa", 0⟩ : Post), ⟨"bbbb", 1⟩, ⟨"ccc", 2⟩] ∧
      (∀ d ∈ out, (fun s => some s.length) d.date = some d.datetime) ∧
      out.Pairwise dateGE) :=
  ⟨by decide,
    c5_parse_date_sorted (fun s => some s.length)
      [(⟨"aa", 0⟩ : Post), ⟨"bbbb", 1⟩, ⟨"ccc", 2⟩] (by decide)⟩

/-- A configuration value: the built-in default table holds strings, bools
and one (empty) list of data-index names. -/
inductive ConfVal where
  | cstr : String → ConfVal
  | cbool : Bool → ConfVal
  | clist : List String → ConfVal
deriving DecidableEq, Repr

/-- `Config.default_config`, verbatim from the source. -/
def default_config : List (String × ConfVal) :=
  [("data_dir", .cstr "data"),
   ("template_dir", .cstr "templates"),
   ("posts_dir", .cstr "posts"),
   ("public_dir", .cstr "public"),
   ("data_indexs", .clist []),
   ("create_public_dir", .cbool true),
   ("data_format", .cstr "csv"),
   ("verbose_mode", .cbool false),
   ("home_template", .cstr "home.html"),
   ("date_format", .cstr "%d%m%y")]

/-- `Config.getconf(key)`, i.e.
`self.user_config.get(key, Config.default_config[key])`.  `ucfg` is the
state of the instance attribute `user_config`: `none` means the attribute
was never assigned, in which case reading it raises `AttributeError`;
a missing key in both tables raises `KeyError` (no claim exercises it). -/
def getconf (ucfg : Option (List (String × ConfVal))) (key : String) :
    Except PyErr ConfVal :=
  match ucfg with
  | none => .error .attributeError
  | some uc =>
    match dictLookup uc key with
    | some v => .ok v
    | none =>
      match dictLookup default_config key with
      | some v => .ok v
      | none => .error .keyError

/-- `Config.__init__(config_filename)`:
`fileOnDisk` is the parsed JSON object when the config file exists, `none`
when opening it raises `FileNotFoundError`.  In the latter case the
handler runs `Utils.infomessage("No config file, using defaults.",
self.getconf("verbose_mode"))` — evaluating the `getconf` argument first —
and the result is the final state of the `user_config` attribute. -/
def config_init (fileOnDisk : Option (List (String × ConfVal))) :
    Except PyErr (Option (List (String × ConfVal))) :=
  match fileOnDisk with
  | some j => .ok (some j)
  | none =>
    match getconf none "verbose_mode" with
    | .error e => .error e
    | .ok _ => .ok none

/-- C1 (code bug): when the optional config file is absent,
`Config.__init__` does not recover with defaults — the
`except FileNotFoundError` handler itself calls
`self.getconf("verbose_mode")`, which reads the never-assigned
`self.user_config` attribute and raises `AttributeError`, so construction
fails and no lookup ever substitutes a default. -/
theorem c1_missing_config_attributeError :
    config_init none = .error .attributeError ∧
    getconf none "verbose_mode" = .error .attributeError :=
  ⟨rfl, rfl⟩

/-- Python slice `s[:k]` on a string, for any integer bound `k` (negative
bounds count from the end, clamped at zero). -/
def pySliceTo (s : List Char) (k : Int) : List Char :=
  if k < 0 then s.take ((s.length : Int) + k).toNat else s.take k.toNat

/-- `TemplateUtils.abbrev(string, maxlength)` (source default
`maxlength=60`): short strings are returned unchanged; otherwise truncate
to `maxlength - 2` characters, strip one trailing space if present, and
append `".."`. -/
def pyAbbrev (s : List Char) (maxlength : Int) : List Char :=
  if (s.length : Int) < maxlength then s
  else
    let tr := pySliceTo s (maxlength - 2)
    let tr2 := if tr.getLast? = some ' ' then tr.dropLast else tr
    tr2 ++ ['.', '.']

/-- C10: for `maxlength ≥ 2`, `pyAbbrev` (the embedding of `abbrev`) returns strings shorter than
`maxlength` unchanged, and otherwise returns the first `maxlength - 2`
characters with a single trailing space removed if present, followed by
`".."` — a string of length at most `maxlength`. -/
theorem c10_abbrev (s : List Char) (m : Int) (hm : 2 ≤ m) :
    ((s.length : Int) < m → pyAbbrev s m = s) ∧
    (m ≤ (s.length : Int) →
      pyAbbrev s m =
        (if (s.take (m - 2).toNat).getLast? = some ' '
         then (s.take (m - 2).toNat).dropLast
         else s.take (m - 2).toNat) ++ ['.', '.'] ∧
      ((pyAbbrev s m).length : Int) ≤ m ∧
      ∃ t, pyAbbrev s m = t ++ ['.', '.']) := by
  constructor
  · intro h
    rw [pyAbbrev, if_pos h]
  · intro hle
    have hnlt : ¬(s.length : Int) < m := by omega
    have hslice : pySliceTo s (m - 2) = s.take (m - 2).toNat := by
      rw [pySliceTo, if_neg (by omega)]
    have heq : pyAbbrev s m =
        (if (s.take (m - 2).toNat).getLast? = some ' '
         then (s.take (m - 2).toNat).dropLast
         else s.take (m - 2).toNat) ++ ['.', '.'] := by
      rw [pyAbbrev, if_neg hnlt]
      simp only [hslice]
    refine ⟨heq, ?_, _, heq⟩
    rw [heq]
    have htn : (m - 2).toNat ≤ s.length := by omega
    have htk : (s.take (m - 2).toNat).length = (m - 2).toNat := by
      rw [List.length_take]
      exact Nat.min_eq_left htn
    by_cases hsp : (s.take (m - 2).toNat).getLast? = some ' '
    · rw [if_pos hsp]
      rw [List.length_append, List.length_dropLast, htk]
      simp only [List.length_cons, List.length_nil]
      omega
    · rw [if_neg hsp]
      rw [List.length_append, htk]
      simp only [List.length_cons, List.length_nil]
      omega

/-- C10 witness at `s = "hello"`, `maxlength = 4`: `pyAbbrev` yields
`"he.."`. -/
theorem c10_abbrev_witness :
    (2 ≤ (4 : Int)) ∧
    ((((['h', 'e', 'l', 'l', 'o'] : List Char).length : Int) < 4 →
      pyAbbrev ['h', 'e', 'l', 'l', 'o'] 4 = ['h', 'e', 'l', 'l', 'o']) ∧
    ((4 : Int) ≤ ((['h', 'e', 'l', 'l', 'o'] : List Char).length : Int) →
      pyAbbrev ['h', 'e', 'l', 'l', 'o'] 4 =
        (if ((['h', 'e', 'l', 'l', 'o'] : List Char).take ((4 : Int) - 2).toNat).getLast? = some ' '
         then ((['h', 'e', 'l', 'l', 'o'] : List Char).take ((4 : Int) - 2).toNat).dropLast
         else (['h', 'e', 'l', 'l', 'o'] : List Char).take ((4 : Int) - 2).toNat) ++ ['.', '.'] ∧
      ((pyAbbrev ['h', 'e', 'l', 'l', 'o'] 4).length : Int) ≤ 4 ∧
      ∃ t, pyAbbrev ['h', 'e', 'l', 'l', 'o'] 4 = t ++ ['.', '.'])) :=
  ⟨by decide, c10_abbrev ['h', 'e', 'l', 'l', 'o'] 4 (by decide)⟩
